import Mathlib

/-!
Shallow embedding of the PetLog frame-sharing and event-tracking core.

The definitions below are translated from the repository sources:
  * src/src/event_tracker.py   (EventTracker)
  * src/src/database.py        (Database.log_event, modelled as an abstract sink)
  * src/src/camera_service.py  (CameraService initialize/start, capture loop)
  * src/src/camera_manager.py  (CameraManager.start)
  * src/src/streaming_service.py (StreamingService._create_stream, _format_frame)

Python floats (wall-clock times, confidences) are modelled as rationals;
all comparisons occurring in the source are order comparisons on values
where rational and floating-point semantics agree.
-/

namespace PetLog

/-- EventType enum from src/src/models.py: ENTERING_AREA and LEAVING_AREA. -/
inductive EventType where
  | entering_area
  | leaving_area
deriving DecidableEq, Repr

/-- One YOLO detection as consumed by EventTracker.process_detections:
a dictionary with at least a class name and a confidence. Bounding boxes are
not read by the tracker and are not modelled. -/
structure Detection where
  class_name : String
  confidence : ℚ
deriving DecidableEq, Repr

/-- One row appended by Database.log_event (src/src/database.py, lines 247-296):
pet_id (always None from the tracker), event type, class name, confidence.
media_path and duration are always None on this call path and are omitted. -/
structure SinkRecord where
  pet_id : Option Nat
  event_type : EventType
  class_name : String
  confidence : ℚ
deriving DecidableEq, Repr

/-- The persistence sink (the Database object) as the tracker sees it:
an append-only list of records plus an id counter. The flag `ok` models
whether the underlying INSERT succeeds; when it is false, log_event raises
(Database.log_event catches sqlite3.Error, logs it, and RE-RAISES it -
src/src/database.py line 294-296). -/
structure DB where
  ok : Bool
  nextId : Nat
  records : List SinkRecord
deriving DecidableEq, Repr

/-- Database.log_event: inserts a row and returns the new event id, or raises
(modelled as Except.error) when the database errors. The error is logged and
re-raised in the source, so the caller sees the exception. -/
def DB.log_event (db : DB) (pet_id : Option Nat) (event_type : EventType)
    (class_name : String) (confidence : ℚ) : Except Unit (Nat × DB) :=
  if db.ok then
    .ok (db.nextId,
      { ok := db.ok, nextId := db.nextId + 1,
        records := db.records ++ [⟨pet_id, event_type, class_name, confidence⟩] })
  else
    .error ()

/-- One event dictionary returned by process_detections: event_id from the
database, type, class name, confidence. The timestamp field
(datetime.now().isoformat()) is not modelled; no claim depends on it. -/
structure Event where
  event_id : Nat
  event_type : EventType
  class_name : String
  confidence : ℚ
deriving DecidableEq, Repr

/-- The sink record produced when an event is logged: pet_id None, same type,
class and confidence (EventTracker._log_event, src/src/event_tracker.py 37-61). -/
def evRecord (e : Event) : SinkRecord :=
  ⟨none, e.event_type, e.class_name, e.confidence⟩

/-- EventTracker state: timeout and the current_objects dict
(class_name -> last_seen_time), modelled as an insertion-ordered
association list, which is Python dict iteration order. -/
structure EventTracker where
  timeout_seconds : ℚ
  current_objects : List (String × ℚ)
deriving DecidableEq, Repr

/-- Dictionary lookup on the association list (Python `d[k]` / `k in d`). -/
def alookup : List (String × ℚ) → String → Option ℚ
  | [], _ => none
  | (a, v) :: t, k => if a = k then some v else alookup t k

/-- Dictionary assignment `d[k] = v`: an existing key keeps its position,
a new key is appended at the end (Python dict insertion-order semantics). -/
def aupdate : List (String × ℚ) → String → ℚ → List (String × ℚ)
  | [], k, v => [(k, v)]
  | (a, w) :: t, k, v => if a = k then (a, v) :: t else (a, w) :: aupdate t k v

/-- Dictionary deletion `del d[k]`. Keys are unique in every dict built by
aupdate, so removing every pair with the key equals removing the single entry. -/
def aremove (m : List (String × ℚ)) (k : String) : List (String × ℚ) :=
  m.filter (fun p => p.1 ≠ k)

/-- Keys of the dictionary. -/
def akeys (m : List (String × ℚ)) : List String :=
  m.map Prod.fst

/-- EventTracker._log_event: forwards to Database.log_event with pet_id None.
There is no try/except here: a database exception propagates to the caller. -/
def tracker_log_event (db : DB) (event_type : EventType) (class_name : String)
    (confidence : ℚ) : Except Unit (Nat × DB) :=
  db.log_event none event_type class_name confidence

/-- The `detected_classes` set built by process_detections (lines 77-85):
the set of class names of the batch. Python set iteration order is
unspecified; the model fixes first-occurrence order, on which no claim
depends. -/
def detected_classes : List Detection → List String
  | [] => []
  | d :: rest =>
      d.class_name :: (detected_classes rest).filter (fun c => c ≠ d.class_name)

/-- The `class_confidences` dict built by process_detections (lines 78-85):
first detection of a class inserts its confidence, a later detection replaces
it only when strictly greater, so the stored value is the batch maximum. -/
def class_confidences (dets : List Detection) : List (String × ℚ) :=
  dets.foldl
    (fun m d =>
      match alookup m d.class_name with
      | none => m ++ [(d.class_name, d.confidence)]
      | some v => if d.confidence > v then aupdate m d.class_name d.confidence else m)
    []

/-- The first loop of process_detections (lines 87-103): for each detected
class, if it is not yet tracked, log an ENTERING_AREA event with the batch-max
confidence and emit the event dict; in all cases set last-seen to now. A
database exception aborts the whole call. -/
def processEntries (db : DB) (objs : List (String × ℚ)) (now : ℚ)
    (confs : List (String × ℚ)) :
    List String → Except Unit (List Event × List (String × ℚ) × DB)
  | [] => .ok ([], objs, db)
  | c :: rest =>
    if (alookup objs c).isSome then
      processEntries db (aupdate objs c now) now confs rest
    else
      let conf := (alookup confs c).getD 0
      match tracker_log_event db .entering_area c conf with
      | .error e => .error e
      | .ok (id, db1) =>
        match processEntries db1 (aupdate objs c now) now confs rest with
        | .error e => .error e
        | .ok (evs, objs2, db2) =>
          .ok (⟨id, .entering_area, c, conf⟩ :: evs, objs2, db2)

/-- The loop of _check_for_leaving_objects (lines 129-152): walk the tracked
dict in order; skip classes seen in this batch; when now - last_seen has
reached the timeout, log a LEAVING_AREA event with the fixed default
confidence 0.8 and mark the class for removal. Returns the events and the
classes_to_remove list. -/
def leavingLoop (db : DB) (timeout now : ℚ) (detected : List String) :
    List (String × ℚ) → Except Unit (List Event × List String × DB)
  | [] => .ok ([], [], db)
  | (c, last_seen) :: rest =>
    if c ∈ detected then
      leavingLoop db timeout now detected rest
    else if timeout ≤ now - last_seen then
      match tracker_log_event db .leaving_area c (4/5) with
      | .error e => .error e
      | .ok (id, db1) =>
        match leavingLoop db1 timeout now detected rest with
        | .error e => .error e
        | .ok (evs, rem, db2) =>
          .ok (⟨id, .leaving_area, c, 4/5⟩ :: evs, c :: rem, db2)
    else
      leavingLoop db timeout now detected rest

/-- EventTracker._check_for_leaving_objects (lines 111-158): run the loop over
current_objects, then delete every class marked for removal. -/
def check_for_leaving_objects (db : DB) (tr : EventTracker) (current_time : ℚ)
    (detected : List String) : Except Unit (List Event × EventTracker × DB) :=
  match leavingLoop db tr.timeout_seconds current_time detected tr.current_objects with
  | .error e => .error e
  | .ok (evs, rem, db1) =>
    .ok (evs,
      { timeout_seconds := tr.timeout_seconds,
        current_objects := rem.foldl aremove tr.current_objects }, db1)

/-- EventTracker.process_detections (lines 63-109): build the detected-class
set and per-class max confidences, run the entering pass, then the leaving
check, and return the concatenated events (entries first, then timeouts). -/
def process_detections (db : DB) (tr : EventTracker) (current_time : ℚ)
    (detections : List Detection) : Except Unit (List Event × EventTracker × DB) :=
  let classes := detected_classes detections
  let confs := class_confidences detections
  match processEntries db tr.current_objects current_time confs classes with
  | .error e => .error e
  | .ok (evs1, objs1, db1) =>
    match check_for_leaving_objects db1
        { timeout_seconds := tr.timeout_seconds, current_objects := objs1 }
        current_time classes with
    | .error e => .error e
    | .ok (evs2, tr2, db2) => .ok (evs1 ++ evs2, tr2, db2)

/-- A sequence of process_detections calls, threading tracker and sink state
and concatenating the returned events. -/
def runCalls (db : DB) (tr : EventTracker) :
    List (ℚ × List Detection) → Except Unit (List Event × EventTracker × DB)
  | [] => .ok ([], tr, db)
  | (now, dets) :: rest =>
    match process_detections db tr now dets with
    | .error e => .error e
    | .ok (evs, tr1, db1) =>
      match runCalls db1 tr1 rest with
      | .error e => .error e
      | .ok (evs2, tr2, db2) => .ok (evs ++ evs2, tr2, db2)

/-- The events of one class label: every event dict mentioning that label. -/
def eventsOf (c : String) (evs : List Event) : List Event :=
  evs.filter (fun e => e.class_name = c)

/-! Association-list (Python dict) lemmas. -/

theorem akeys_nil : akeys [] = [] := rfl

theorem akeys_cons (p : String × ℚ) (t : List (String × ℚ)) :
    akeys (p :: t) = p.1 :: akeys t := rfl

theorem alookup_aupdate_self (m : List (String × ℚ)) (k : String) (v : ℚ) :
    alookup (aupdate m k v) k = some v := by
  induction m with
  | nil => simp [aupdate, alookup]
  | cons p t ih =>
    obtain ⟨a, w⟩ := p
    by_cases h : a = k
    · simp [aupdate, alookup, h]
    · simp [aupdate, alookup, h, ih]

theorem alookup_aupdate_ne (m : List (String × ℚ)) (k c : String) (v : ℚ)
    (h : c ≠ k) : alookup (aupdate m k v) c = alookup m c := by
  induction m with
  | nil => simp [aupdate, alookup, Ne.symm h]
  | cons p t ih =>
    obtain ⟨a, w⟩ := p
    by_cases ha : a = k
    · subst ha
      simp [aupdate, alookup, Ne.symm h]
    · by_cases hc : a = c
      · simp [aupdate, alookup, ha, hc, h]
      · simp [aupdate, alookup, ha, hc, ih]

theorem mem_akeys_iff_isSome (m : List (String × ℚ)) (c : String) :
    c ∈ akeys m ↔ (alookup m c).isSome := by
  induction m with
  | nil => simp [akeys_nil, alookup]
  | cons p t ih =>
    obtain ⟨a, w⟩ := p
    by_cases h : a = c
    · simp [akeys_cons, alookup, h]
    · simp [akeys_cons, alookup, h, Ne.symm h, ih]

theorem alookup_eq_none_iff (m : List (String × ℚ)) (c : String) :
    alookup m c = none ↔ c ∉ akeys m := by
  rw [mem_akeys_iff_isSome]
  cases h : alookup m c <;> simp [h]

theorem akeys_aupdate (m : List (String × ℚ)) (k : String) (v : ℚ) (c : String) :
    c ∈ akeys (aupdate m k v) ↔ (c = k ∨ c ∈ akeys m) := by
  induction m with
  | nil => simp [aupdate, akeys_cons, akeys_nil, eq_comm]
  | cons p t ih =>
    obtain ⟨a, w⟩ := p
    by_cases ha : a = k
    · subst ha
      constructor
      · intro hm
        rcases List.mem_cons.mp (by simpa [aupdate, akeys_cons] using hm) with h1 | h1
        · exact Or.inl h1
        · exact Or.inr (List.mem_cons_of_mem _ h1)
      · intro hm
        have : c = a ∨ c ∈ akeys t := by
          rcases hm with h1 | h1
          · exact Or.inl h1
          · rcases List.mem_cons.mp (by simpa [akeys_cons] using h1) with h2 | h2
            · exact Or.inl h2
            · exact Or.inr h2
        simpa [aupdate, akeys_cons] using this
    · rw [show aupdate ((a, w) :: t) k v = (a, w) :: aupdate t k v by
        simp [aupdate, ha]]
      rw [akeys_cons, akeys_cons, List.mem_cons, List.mem_cons, ih]
      tauto

theorem akeys_aupdate_nodup (m : List (String × ℚ)) (k : String) (v : ℚ)
    (h : (akeys m).Nodup) : (akeys (aupdate m k v)).Nodup := by
  induction m with
  | nil => simp [aupdate, akeys_cons, akeys_nil]
  | cons p t ih =>
    obtain ⟨a, w⟩ := p
    rw [akeys_cons, List.nodup_cons] at h
    by_cases ha : a = k
    · subst ha
      simpa [aupdate, akeys_cons] using h
    · rw [aupdate, if_neg ha, akeys_cons, List.nodup_cons]
      refine ⟨?_, ih h.2⟩
      intro hmem
      rcases (akeys_aupdate t k v a).mp hmem with h1 | h1
      · exact ha h1
      · exact h.1 h1

theorem mem_of_alookup_eq_some (m : List (String × ℚ)) (c : String) (v : ℚ)
    (h : alookup m c = some v) : (c, v) ∈ m := by
  induction m with
  | nil => simp [alookup] at h
  | cons p t ih =>
    obtain ⟨a, w⟩ := p
    by_cases ha : a = c
    · subst ha
      have hw : w = v := by simpa [alookup] using h
      subst hw
      exact List.mem_cons_self _ _
    · simp only [alookup, if_neg ha] at h
      exact List.mem_cons_of_mem _ (ih h)

theorem alookup_eq_some_of_mem (m : List (String × ℚ)) (c : String) (v : ℚ)
    (hnd : (akeys m).Nodup) (h : (c, v) ∈ m) : alookup m c = some v := by
  induction m with
  | nil => simp at h
  | cons p t ih =>
    obtain ⟨a, w⟩ := p
    rw [akeys_cons, List.nodup_cons] at hnd
    rcases List.mem_cons.mp h with h1 | h1
    · obtain ⟨hac, hwv⟩ := Prod.mk.injEq .. ▸ h1.symm
      subst hac
      subst hwv
      simp [alookup]
    · have ha : a ≠ c := by
        intro he
        apply hnd.1
        rw [he]
        exact List.mem_map.mpr ⟨(c, v), h1, rfl⟩
      simp only [alookup, if_neg ha]
      exact ih hnd.2 h1

theorem alookup_aremove (m : List (String × ℚ)) (k c : String) :
    alookup (aremove m k) c = if c = k then none else alookup m c := by
  induction m with
  | nil => simp [aremove, alookup]
  | cons p t ih =>
    obtain ⟨a, w⟩ := p
    by_cases ha : a = k
    · subst ha
      by_cases hc : c = a
      · simp_all [aremove, alookup, List.filter_cons]
      · simp_all [aremove, alookup, List.filter_cons, Ne.symm hc]
    · by_cases hc : a = c
      · subst hc
        have hck : ¬(a = k) := ha
        simp_all [aremove, alookup, List.filter_cons]
      · simp_all [aremove, alookup, List.filter_cons]

theorem akeys_aremove_nodup (m : List (String × ℚ)) (k : String)
    (h : (akeys m).Nodup) : (akeys (aremove m k)).Nodup :=
  h.sublist (List.Sublist.map Prod.fst (List.filter_sublist m))

theorem alookup_append_single (m : List (String × ℚ)) (k : String) (w : ℚ)
    (c : String) :
    alookup (m ++ [(k, w)]) c =
      match alookup m c with
      | some v => some v
      | none => if k = c then some w else none := by
  induction m with
  | nil => simp [alookup]
  | cons p t ih =>
    obtain ⟨a, u⟩ := p
    by_cases ha : a = c
    · simp [alookup, ha]
    · simp [alookup, ha, ih]

/-! Lemmas about the detected-class set and the per-class max confidences. -/

theorem mem_detected_classes (dets : List Detection) (c : String) :
    c ∈ detected_classes dets ↔ ∃ d ∈ dets, d.class_name = c := by
  induction dets with
  | nil => simp [detected_classes]
  | cons d rest ih =>
    by_cases h : c = d.class_name
    · subst h
      simp [detected_classes]
    · simp only [detected_classes, List.mem_cons, List.mem_filter, ih,
        List.mem_cons]
      constructor
      · rintro (h1 | ⟨⟨d', hd', hc'⟩, _⟩)
        · exact absurd h1 h
        · exact ⟨d', Or.inr hd', hc'⟩
      · rintro ⟨d', hd' | hd', hc'⟩
        · exact absurd (hd' ▸ hc' : d.class_name = c).symm h
        · exact Or.inr ⟨⟨d', hd', hc'⟩, by simpa using h⟩

theorem detected_classes_nodup (dets : List Detection) :
    (detected_classes dets).Nodup := by
  induction dets with
  | nil => simp [detected_classes]
  | cons d rest ih =>
    rw [detected_classes, List.nodup_cons]
    refine ⟨?_, ih.filter _⟩
    intro hmem
    have := (List.mem_filter.mp hmem).2
    simp at this

/-- The batch maximum confidence for a class: attained by some detection of
that class and at least every detection of that class. -/
def IsMaxConf (dets : List Detection) (c : String) (v : ℚ) : Prop :=
  (∃ d ∈ dets, d.class_name = c ∧ d.confidence = v) ∧
    ∀ d ∈ dets, d.class_name = c → d.confidence ≤ v

/-- One step of the class_confidences fold. -/
def confStep (m : List (String × ℚ)) (d : Detection) : List (String × ℚ) :=
  match alookup m d.class_name with
  | none => m ++ [(d.class_name, d.confidence)]
  | some v => if d.confidence > v then aupdate m d.class_name d.confidence else m

theorem class_confidences_eq_foldl (dets : List Detection) :
    class_confidences dets = dets.foldl confStep [] := rfl

theorem confStep_foldl_invariant (dets : List Detection) :
    ∀ (m : List (String × ℚ)) (seen : List Detection),
      (∀ c v, alookup m c = some v → IsMaxConf seen c v) →
      (∀ c, alookup m c = none → ∀ d ∈ seen, d.class_name ≠ c) →
      (∀ c v, alookup (dets.foldl confStep m) c = some v →
          IsMaxConf (seen ++ dets) c v) ∧
        (∀ c, alookup (dets.foldl confStep m) c = none →
          ∀ d ∈ seen ++ dets, d.class_name ≠ c) := by
  induction dets with
  | nil => intro m seen h1 h2; simpa using ⟨h1, h2⟩
  | cons d rest ih =>
    intro m seen h1 h2
    have key :
        (∀ c v, alookup (confStep m d) c = some v → IsMaxConf (seen ++ [d]) c v) ∧
        (∀ c, alookup (confStep m d) c = none → ∀ d' ∈ seen ++ [d], d'.class_name ≠ c) := by
      rw [confStep]
      cases hl : alookup m d.class_name with
      | none =>
        simp only [hl]
        constructor
        · intro c v hc
          rw [alookup_append_single] at hc
          cases hm : alookup m c with
          | some u =>
            rw [hm] at hc
            obtain rfl : u = v := by simpa using hc
            obtain ⟨⟨d', hd', hcn, hcf⟩, hub⟩ := h1 c u hm
            refine ⟨⟨d', List.mem_append_left _ hd', hcn, hcf⟩, ?_⟩
            intro e he hcn'
            rcases List.mem_append.mp he with he | he
            · exact hub e he hcn'
            · obtain rfl : e = d := by simpa using he
              exact absurd (hcn' ▸ hl) (by rw [hm]; simp)
          | none =>
            rw [hm] at hc
            by_cases hk : d.class_name = c
            · rw [if_pos hk] at hc
              obtain rfl : d.confidence = v := by simpa using hc
              refine ⟨⟨d, List.mem_append_right _ (by simp), hk, rfl⟩, ?_⟩
              intro e he hcn'
              rcases List.mem_append.mp he with he | he
              · exact absurd hcn' (h2 c hm e he)
              · obtain rfl : e = d := by simpa using he
                exact le_refl _
            · rw [if_neg hk] at hc
              exact absurd hc (by simp)
        · intro c hc
          rw [alookup_append_single] at hc
          cases hm : alookup m c with
          | some u => rw [hm] at hc; exact absurd hc (by simp)
          | none =>
            rw [hm] at hc
            by_cases hk : d.class_name = c
            · rw [if_pos hk] at hc; exact absurd hc (by simp)
            · intro d' hd' hcn
              rcases List.mem_append.mp hd' with hd' | hd'
              · exact h2 c hm d' hd' hcn
              · obtain rfl : d' = d := by simpa using hd'
                exact hk hcn
      | some v0 =>
        simp only [hl]
        by_cases hgt : d.confidence > v0
        · rw [if_pos hgt]
          constructor
          · intro c v hc
            by_cases hk : d.class_name = c
            · subst hk
              rw [alookup_aupdate_self] at hc
              obtain rfl : d.confidence = v := by simpa using hc
              refine ⟨⟨d, List.mem_append_right _ (by simp), rfl, rfl⟩, ?_⟩
              intro e he hcn'
              rcases List.mem_append.mp he with he | he
              · exact le_of_lt (lt_of_le_of_lt ((h1 _ v0 hl).2 e he hcn') hgt)
              · obtain rfl : e = d := by simpa using he
                exact le_refl _
            · rw [alookup_aupdate_ne _ _ _ _ (fun hh => hk hh.symm)] at hc
              obtain ⟨⟨d', hd', hcn, hcf⟩, hub⟩ := h1 c v hc
              refine ⟨⟨d', List.mem_append_left _ hd', hcn, hcf⟩, ?_⟩
              intro e he hcn'
              rcases List.mem_append.mp he with he | he
              · exact hub e he hcn'
              · obtain rfl : e = d := by simpa using he
                exact absurd hcn' hk
          · intro c hc
            by_cases hk : d.class_name = c
            · subst hk
              rw [alookup_aupdate_self] at hc
              exact absurd hc (by simp)
            · rw [alookup_aupdate_ne _ _ _ _ (fun hh => hk hh.symm)] at hc
              intro d' hd' hcn
              rcases List.mem_append.mp hd' with hd' | hd'
              · exact h2 c hc d' hd' hcn
              · obtain rfl : d' = d := by simpa using hd'
                exact hk hcn
        · rw [if_neg hgt]
          constructor
          · intro c v hc
            obtain ⟨⟨d', hd', hcn, hcf⟩, hub⟩ := h1 c v hc
            refine ⟨⟨d', List.mem_append_left _ hd', hcn, hcf⟩, ?_⟩
            intro e he hcn'
            rcases List.mem_append.mp he with he | he
            · exact hub e he hcn'
            · obtain rfl : e = d := by simpa using he
              subst hcn'
              rw [hl] at hc
              obtain rfl : v0 = v := by simpa using hc
              exact le_of_not_lt hgt
          · intro c hc
            intro d' hd' hcn
            rcases List.mem_append.mp hd' with hd' | hd'
            · exact h2 c hc d' hd' hcn
            · obtain rfl : d' = d := by simpa using hd'
              subst hcn
              rw [hl] at hc
              exact absurd hc (by simp)
    have := ih (confStep m d) (seen ++ [d]) key.1 key.2
    simpa [List.foldl_cons, List.append_assoc] using this

theorem class_confidences_spec (dets : List Detection) (c : String)
    (h : c ∈ detected_classes dets) :
    ∃ v, alookup (class_confidences dets) c = some v ∧ IsMaxConf dets c v := by
  obtain ⟨hmax, hnone⟩ := confStep_foldl_invariant dets [] []
    (by intro c v hv; simp [alookup] at hv)
    (by intro c hv d hd; simp at hd)
  rw [class_confidences_eq_foldl]
  cases hl : alookup (dets.foldl confStep []) c with
  | none =>
    obtain ⟨d, hd, hcn⟩ := (mem_detected_classes dets c).mp h
    exact absurd hcn (by simpa using hnone c hl d (by simpa using hd))
  | some v =>
    exact ⟨v, rfl, by simpa using hmax c v hl⟩

/-! Lemmas about eventsOf. -/

theorem eventsOf_nil (c : String) : eventsOf c [] = [] := rfl

theorem eventsOf_cons_self (c : String) (e : Event) (l : List Event)
    (h : e.class_name = c) : eventsOf c (e :: l) = e :: eventsOf c l := by
  simp [eventsOf, List.filter_cons, h]

theorem eventsOf_cons_ne (c : String) (e : Event) (l : List Event)
    (h : e.class_name ≠ c) : eventsOf c (e :: l) = eventsOf c l := by
  simp [eventsOf, List.filter_cons, h]

theorem eventsOf_append (c : String) (l1 l2 : List Event) :
    eventsOf c (l1 ++ l2) = eventsOf c l1 ++ eventsOf c l2 := by
  simp [eventsOf, List.filter_append]

/-! Specification of the entering pass of process_detections. -/

theorem processEntries_spec :
    ∀ (classes : List String) (db : DB) (objs : List (String × ℚ))
      (now : ℚ) (confs : List (String × ℚ)) (evs : List Event)
      (objs' : List (String × ℚ)) (db' : DB),
      classes.Nodup →
      processEntries db objs now confs classes = .ok (evs, objs', db') →
      (∀ e ∈ evs, e.event_type = .entering_area) ∧
      (∀ c, c ∈ classes → alookup objs c = none →
        ∃ id, eventsOf c evs = [⟨id, .entering_area, c, (alookup confs c).getD 0⟩]) ∧
      (∀ c, c ∈ classes → (alookup objs c).isSome → eventsOf c evs = []) ∧
      (∀ c, c ∉ classes → eventsOf c evs = []) ∧
      (∀ c, alookup objs' c = if c ∈ classes then some now else alookup objs c) ∧
      ((akeys objs).Nodup → (akeys objs').Nodup) ∧
      db'.ok = db.ok ∧ db'.records = db.records ++ evs.map evRecord ∧
      db'.nextId = db.nextId + evs.length := by
  intro classes
  induction classes with
  | nil =>
    intro db objs now confs evs objs' db' _ h
    rw [processEntries] at h
    obtain ⟨rfl, rfl, rfl⟩ : evs = [] ∧ objs = objs' ∧ db = db' := by
      simpa using h
    refine ⟨by simp, by simp, by simp, ?_, by simp, fun hh => hh, rfl, by simp, by simp⟩
    intro c _
    rfl
  | cons c rest ih =>
    intro db objs now confs evs objs' db' hnd h
    rw [List.nodup_cons] at hnd
    rw [processEntries] at h
    by_cases hin : (alookup objs c).isSome
    · rw [if_pos hin] at h
      obtain ⟨ih1, ih2, ih3, ih4, ih5, ih6, ih7, ih8, ih9⟩ :=
        ih db (aupdate objs c now) now confs evs objs' db' hnd.2 h
      refine ⟨ih1, ?_, ?_, ?_, ?_, ?_, ih7, ih8, ih9⟩
      · intro c' hc' hnone
        rcases List.mem_cons.mp hc' with rfl | hc'
        · rw [hnone] at hin
          simp at hin
        · have hne : c' ≠ c := fun he => hnd.1 (he ▸ hc')
          exact ih2 c' hc' (by rwa [alookup_aupdate_ne _ _ _ _ hne])
      · intro c' hc' hsome
        rcases List.mem_cons.mp hc' with rfl | hc'
        · exact ih4 c' hnd.1
        · have hne : c' ≠ c := fun he => hnd.1 (he ▸ hc')
          exact ih3 c' hc' (by rwa [alookup_aupdate_ne _ _ _ _ hne])
      · intro c' hc'
        exact ih4 c' (fun hm => hc' (List.mem_cons_of_mem _ hm))
      · intro c'
        rw [ih5 c']
        by_cases hc' : c' ∈ rest
        · simp [hc', List.mem_cons_of_mem]
        · by_cases hcc : c' = c
          · subst hcc
            simp [hc', alookup_aupdate_self]
          · simp [hc', hcc, alookup_aupdate_ne _ _ _ _ hcc]
      · intro hh
        exact ih6 (akeys_aupdate_nodup _ _ _ hh)
    · rw [if_neg hin] at h
      have hnone : alookup objs c = none := by
        cases hx : alookup objs c
        · rfl
        · rw [hx] at hin
          simp at hin
      simp only [tracker_log_event, DB.log_event] at h
      by_cases hok : db.ok
      · rw [if_pos hok] at h
        dsimp only at h
        cases hrec : processEntries
            ⟨db.ok, db.nextId + 1,
              db.records ++ [⟨none, .entering_area, c, (alookup confs c).getD 0⟩]⟩
            (aupdate objs c now) now confs rest with
        | error e =>
          rw [hrec] at h
          simp at h
        | ok trip =>
          obtain ⟨evs0, objs2, db2⟩ := trip
          rw [hrec] at h
          obtain ⟨rfl, rfl, rfl⟩ :
              (⟨db.nextId, .entering_area, c, (alookup confs c).getD 0⟩ : Event) :: evs0 = evs ∧
                objs2 = objs' ∧ db2 = db' := by
            simpa using h
          obtain ⟨ih1, ih2, ih3, ih4, ih5, ih6, ih7, ih8, ih9⟩ :=
            ih _ (aupdate objs c now) now confs evs0 objs2 db2 hnd.2 hrec
          refine ⟨?_, ?_, ?_, ?_, ?_, ?_, ?_, ?_, ?_⟩
          · intro e he
            rcases List.mem_cons.mp he with rfl | he
            · rfl
            · exact ih1 e he
          · intro c' hc' hnone'
            rcases List.mem_cons.mp hc' with rfl | hc'
            · rw [eventsOf_cons_self c'
                  ⟨db.nextId, .entering_area, c', (alookup confs c').getD 0⟩ evs0 rfl,
                ih4 c' hnd.1]
              exact ⟨db.nextId, rfl⟩
            · have hne : c' ≠ c := fun he => hnd.1 (he ▸ hc')
              rw [eventsOf_cons_ne _ _ _ (fun hh => hne hh.symm)]
              exact ih2 c' hc' (by rwa [alookup_aupdate_ne _ _ _ _ hne])
          · intro c' hc' hsome
            rcases List.mem_cons.mp hc' with rfl | hc'
            · rw [hnone] at hsome
              simp at hsome
            · have hne : c' ≠ c := fun he => hnd.1 (he ▸ hc')
              rw [eventsOf_cons_ne _ _ _ (fun hh => hne hh.symm)]
              exact ih3 c' hc' (by rwa [alookup_aupdate_ne _ _ _ _ hne])
          · intro c' hc'
            have hne : c' ≠ c := fun he => hc' (he ▸ List.mem_cons_self _ _)
            rw [eventsOf_cons_ne _ _ _ (fun hh => hne hh.symm)]
            exact ih4 c' (fun hm => hc' (List.mem_cons_of_mem _ hm))
          · intro c'
            rw [ih5 c']
            by_cases hc' : c' ∈ rest
            · simp [hc', List.mem_cons_of_mem]
            · by_cases hcc : c' = c
              · subst hcc
                simp [hc', alookup_aupdate_self]
              · simp [hc', hcc, alookup_aupdate_ne _ _ _ _ hcc]
          · intro hh
            exact ih6 (akeys_aupdate_nodup _ _ _ hh)
          · rw [ih7]
          · rw [ih8]
            simp [evRecord, List.append_assoc]
          · rw [ih9]
            simp
            omega
      · rw [if_neg hok] at h
        simp at h

theorem processEntries_total :
    ∀ (classes : List String) (db : DB) (objs : List (String × ℚ))
      (now : ℚ) (confs : List (String × ℚ)), db.ok = true →
      ∃ evs objs' db',
        processEntries db objs now confs classes = .ok (evs, objs', db') := by
  intro classes
  induction classes with
  | nil =>
    intro db objs now confs _
    exact ⟨[], objs, db, rfl⟩
  | cons c rest ih =>
    intro db objs now confs hok
    rw [processEntries]
    by_cases hin : (alookup objs c).isSome
    · rw [if_pos hin]
      exact ih db _ now confs hok
    · rw [if_neg hin]
      simp only [tracker_log_event, DB.log_event, hok, if_true]
      obtain ⟨evs, objs', db', hrec⟩ :=
        ih ⟨true, db.nextId + 1,
            db.records ++ [⟨none, .entering_area, c, (alookup confs c).getD 0⟩]⟩
          (aupdate objs c now) now confs rfl
      rw [hrec]
      exact ⟨_, _, _, rfl⟩

/-! Specification of the leaving check of process_detections. -/

theorem leavingLoop_spec :
    ∀ (items : List (String × ℚ)) (db : DB) (timeout now : ℚ)
      (detected : List String) (evs : List Event) (rem : List String) (db' : DB),
      (akeys items).Nodup →
      leavingLoop db timeout now detected items = .ok (evs, rem, db') →
      (∀ e ∈ evs, e.event_type = .leaving_area ∧ e.confidence = 4/5) ∧
      rem = evs.map Event.class_name ∧
      (∀ c t, (c, t) ∈ items → (c ∈ rem ↔ (c ∉ detected ∧ timeout ≤ now - t))) ∧
      (∀ c ∈ rem, c ∈ akeys items ∧ c ∉ detected) ∧
      rem.Nodup ∧
      (∀ c, c ∈ rem → ∃ id, eventsOf c evs = [⟨id, .leaving_area, c, 4/5⟩]) ∧
      (∀ c, c ∉ rem → eventsOf c evs = []) ∧
      db'.ok = db.ok ∧ db'.records = db.records ++ evs.map evRecord ∧
      db'.nextId = db.nextId + evs.length := by
  intro items
  induction items with
  | nil =>
    intro db timeout now detected evs rem db' _ h
    rw [leavingLoop] at h
    obtain ⟨rfl, rfl, rfl⟩ : evs = [] ∧ [] = rem ∧ db = db' := by simpa using h
    refine ⟨by simp, by simp, by simp, by simp, by simp, by simp, ?_, rfl, by simp, by simp⟩
    intro c _
    rfl
  | cons p rest ih =>
    obtain ⟨c, t⟩ := p
    intro db timeout now detected evs rem db' hnd h
    rw [akeys_cons, List.nodup_cons] at hnd
    rw [leavingLoop] at h
    by_cases hdet : c ∈ detected
    · rw [if_pos hdet] at h
      obtain ⟨ih1, ih2, ih3, ih4, ih5, ih6, ih7, ih8, ih9, ih10⟩ :=
        ih db timeout now detected evs rem db' hnd.2 h
      refine ⟨ih1, ih2, ?_, ?_, ih5, ih6, ih7, ih8, ih9, ih10⟩
      · intro c' t' hmem
        rcases List.mem_cons.mp hmem with he | hmem'
        · obtain ⟨rfl, rfl⟩ : c' = c ∧ t' = t := Prod.mk.injEq .. ▸ he
          constructor
          · intro hr
            exact absurd ((ih4 c' hr).1) hnd.1
          · rintro ⟨hnd', _⟩
            exact absurd hdet hnd'
        · exact ih3 c' t' hmem'
      · intro c' hr
        exact ⟨by rw [akeys_cons]; exact List.mem_cons_of_mem _ (ih4 c' hr).1,
          (ih4 c' hr).2⟩
    · rw [if_neg hdet] at h
      by_cases htm : timeout ≤ now - t
      · rw [if_pos htm] at h
        simp only [tracker_log_event, DB.log_event] at h
        by_cases hok : db.ok
        · rw [if_pos hok] at h
          dsimp only at h
          cases hrec : leavingLoop
              ⟨db.ok, db.nextId + 1,
                db.records ++ [⟨none, .leaving_area, c, 4/5⟩]⟩
              timeout now detected rest with
          | error e =>
            rw [hrec] at h
            simp at h
          | ok trip =>
            obtain ⟨evs0, rem0, db2⟩ := trip
            rw [hrec] at h
            obtain ⟨rfl, rfl, rfl⟩ :
                (⟨db.nextId, .leaving_area, c, 4/5⟩ : Event) :: evs0 = evs ∧
                  c :: rem0 = rem ∧ db2 = db' := by
              simpa using h
            obtain ⟨ih1, ih2, ih3, ih4, ih5, ih6, ih7, ih8, ih9, ih10⟩ :=
              ih _ timeout now detected evs0 rem0 db2 hnd.2 hrec
            have hcnotrem : c ∉ rem0 := fun hr => hnd.1 (ih4 c hr).1
            refine ⟨?_, ?_, ?_, ?_, ?_, ?_, ?_, ?_, ?_, ?_⟩
            · intro e he
              rcases List.mem_cons.mp he with rfl | he
              · exact ⟨rfl, rfl⟩
              · exact ih1 e he
            · simp only [List.map_cons, ih2]
            · intro c' t' hmem
              rcases List.mem_cons.mp hmem with he | hmem'
              · obtain ⟨rfl, rfl⟩ : c' = c ∧ t' = t := Prod.mk.injEq .. ▸ he
                simp [hdet, htm]
              · have hc'mem : c' ∈ akeys rest :=
                  List.mem_map.mpr ⟨(c', t'), hmem', rfl⟩
                have hne : c' ≠ c := fun he' => hnd.1 (he' ▸ hc'mem)
                rw [List.mem_cons]
                rw [ih3 c' t' hmem']
                simp [hne]
            · intro c' hr
              rcases List.mem_cons.mp hr with rfl | hr
              · exact ⟨by rw [akeys_cons]; exact List.mem_cons_self _ _, hdet⟩
              · exact ⟨by rw [akeys_cons]; exact List.mem_cons_of_mem _ (ih4 c' hr).1,
                  (ih4 c' hr).2⟩
            · exact List.nodup_cons.mpr ⟨hcnotrem, ih5⟩
            · intro c' hr
              rcases List.mem_cons.mp hr with rfl | hr
              · rw [eventsOf_cons_self c' ⟨db.nextId, .leaving_area, c', 4/5⟩ evs0 rfl,
                  ih7 c' hcnotrem]
                exact ⟨db.nextId, rfl⟩
              · have hne : c' ≠ c := fun he' => (he' ▸ hcnotrem) hr
                rw [eventsOf_cons_ne _ _ _ (fun hh => hne hh.symm)]
                exact ih6 c' hr
            · intro c' hr
              have hne : c' ≠ c := fun he' => hr (he' ▸ List.mem_cons_self _ _)
              rw [eventsOf_cons_ne _ _ _ (fun hh => hne hh.symm)]
              exact ih7 c' (fun hm => hr (List.mem_cons_of_mem _ hm))
            · rw [ih8]
            · rw [ih9]
              simp [evRecord, List.append_assoc]
            · rw [ih10]
              simp
              omega
        · rw [if_neg hok] at h
          simp at h
      · rw [if_neg htm] at h
        obtain ⟨ih1, ih2, ih3, ih4, ih5, ih6, ih7, ih8, ih9, ih10⟩ :=
          ih db timeout now detected evs rem db' hnd.2 h
        refine ⟨ih1, ih2, ?_, ?_, ih5, ih6, ih7, ih8, ih9, ih10⟩
        · intro c' t' hmem
          rcases List.mem_cons.mp hmem with he | hmem'
          · obtain ⟨rfl, rfl⟩ : c' = c ∧ t' = t := Prod.mk.injEq .. ▸ he
            constructor
            · intro hr
              exact absurd ((ih4 c' hr).1) hnd.1
            · rintro ⟨_, htm'⟩
              exact absurd htm' htm
          · exact ih3 c' t' hmem'
        · intro c' hr
          exact ⟨by rw [akeys_cons]; exact List.mem_cons_of_mem _ (ih4 c' hr).1,
            (ih4 c' hr).2⟩

theorem leavingLoop_total :
    ∀ (items : List (String × ℚ)) (db : DB) (timeout now : ℚ)
      (detected : List String), db.ok = true →
      ∃ evs rem db', leavingLoop db timeout now detected items = .ok (evs, rem, db') := by
  intro items
  induction items with
  | nil =>
    intro db timeout now detected _
    exact ⟨[], [], db, rfl⟩
  | cons p rest ih =>
    obtain ⟨c, t⟩ := p
    intro db timeout now detected hok
    rw [leavingLoop]
    by_cases hdet : c ∈ detected
    · rw [if_pos hdet]
      exact ih db timeout now detected hok
    · rw [if_neg hdet]
      by_cases htm : timeout ≤ now - t
      · rw [if_pos htm]
        simp only [tracker_log_event, DB.log_event, hok, if_true]
        obtain ⟨evs, rem, db', hrec⟩ :=
          ih ⟨true, db.nextId + 1, db.records ++ [⟨none, .leaving_area, c, 4/5⟩]⟩
            timeout now detected rfl
        rw [hrec]
        exact ⟨_, _, _, rfl⟩
      · rw [if_neg htm]
        exact ih db timeout now detected hok

/-! Lemmas about the final removal pass. -/

theorem alookup_foldl_aremove :
    ∀ (rem : List String) (m : List (String × ℚ)) (c : String),
      alookup (rem.foldl aremove m) c = if c ∈ rem then none else alookup m c := by
  intro rem
  induction rem with
  | nil => intro m c; simp
  | cons r rest ih =>
    intro m c
    rw [List.foldl_cons, ih]
    by_cases hc : c ∈ rest
    · simp [hc, List.mem_cons_of_mem]
    · by_cases hcr : c = r
      · subst hcr
        simp [hc, alookup_aremove]
      · simp [hc, hcr, alookup_aremove]

theorem akeys_foldl_aremove_nodup :
    ∀ (rem : List String) (m : List (String × ℚ)),
      (akeys m).Nodup → (akeys (rem.foldl aremove m)).Nodup := by
  intro rem
  induction rem with
  | nil => intro m h; simpa using h
  | cons r rest ih =>
    intro m h
    rw [List.foldl_cons]
    exact ih _ (akeys_aremove_nodup _ _ h)

/-! Master specification of one process_detections call. -/

theorem process_detections_spec (db : DB) (tr : EventTracker) (now : ℚ)
    (dets : List Detection) (evs : List Event) (tr' : EventTracker) (db' : DB)
    (hnd : (akeys tr.current_objects).Nodup)
    (h : process_detections db tr now dets = .ok (evs, tr', db')) :
    tr'.timeout_seconds = tr.timeout_seconds ∧
    (∃ evs1 evs2, evs = evs1 ++ evs2 ∧
      (∀ e ∈ evs1, e.event_type = .entering_area) ∧
      (∀ e ∈ evs2, e.event_type = .leaving_area ∧ e.confidence = 4/5)) ∧
    (∀ c, c ∈ detected_classes dets → alookup tr.current_objects c = none →
      ∃ id v, eventsOf c evs = [⟨id, .entering_area, c, v⟩] ∧ IsMaxConf dets c v ∧
        alookup tr'.current_objects c = some now) ∧
    (∀ c, c ∈ detected_classes dets → (alookup tr.current_objects c).isSome →
      eventsOf c evs = [] ∧ alookup tr'.current_objects c = some now) ∧
    (∀ c t, (c, t) ∈ tr.current_objects → c ∉ detected_classes dets →
      (tr.timeout_seconds ≤ now - t →
        (∃ id, eventsOf c evs = [⟨id, .leaving_area, c, 4/5⟩]) ∧
          alookup tr'.current_objects c = none) ∧
      (¬tr.timeout_seconds ≤ now - t →
        eventsOf c evs = [] ∧ alookup tr'.current_objects c = some t)) ∧
    (∀ c, c ∉ detected_classes dets → c ∉ akeys tr.current_objects →
      eventsOf c evs = [] ∧ alookup tr'.current_objects c = none) ∧
    (akeys tr'.current_objects).Nodup ∧
    db'.ok = db.ok ∧ db'.records = db.records ++ evs.map evRecord ∧
    db'.nextId = db.nextId + evs.length := by
  rw [process_detections] at h
  cases hE : processEntries db tr.current_objects now (class_confidences dets)
      (detected_classes dets) with
  | error e =>
    rw [hE] at h
    simp at h
  | ok tripE =>
    obtain ⟨evs1, objs1, db1⟩ := tripE
    rw [hE] at h
    unfold check_for_leaving_objects at h
    dsimp only at h
    cases hL : leavingLoop db1 tr.timeout_seconds now (detected_classes dets) objs1 with
    | error e =>
      rw [hL] at h
      simp at h
    | ok tripL =>
      obtain ⟨evs2, rem, db2⟩ := tripL
      rw [hL] at h
      obtain ⟨rfl, rfl, rfl⟩ :
          evs1 ++ evs2 = evs ∧
            ({ timeout_seconds := tr.timeout_seconds,
               current_objects := rem.foldl aremove objs1 } : EventTracker) = tr' ∧
            db2 = db' := by
        simpa using h
      obtain ⟨ep1, ep2, ep3, ep4, ep5, ep6, ep7, ep8, ep9⟩ :=
        processEntries_spec _ db tr.current_objects now (class_confidences dets)
          evs1 objs1 db1 (detected_classes_nodup dets) hE
      have hobjs1nd : (akeys objs1).Nodup := ep6 hnd
      obtain ⟨ll1, ll2, ll3, ll4, ll5, ll6, ll7, ll8, ll9, ll10⟩ :=
        leavingLoop_spec objs1 db1 tr.timeout_seconds now (detected_classes dets)
          evs2 rem db2 hobjs1nd hL
      have hremNone : ∀ c, c ∈ detected_classes dets → c ∉ rem := by
        intro c hc hr
        exact (ll4 c hr).2 hc
      refine ⟨rfl, ⟨evs1, evs2, rfl, ep1, ll1⟩, ?_, ?_, ?_, ?_, ?_, ?_, ?_, ?_⟩
      · intro c hc hnone
        obtain ⟨id, hev1⟩ := ep2 c hc hnone
        obtain ⟨v, hv, hmax⟩ := class_confidences_spec dets c hc
        refine ⟨id, v, ?_, hmax, ?_⟩
        · rw [eventsOf_append, hev1, ll7 c (hremNone c hc), hv]
          simp
        · dsimp only
          rw [alookup_foldl_aremove, if_neg (hremNone c hc), ep5 c, if_pos hc]
      · intro c hc hsome
        refine ⟨?_, ?_⟩
        · rw [eventsOf_append, ep3 c hc hsome, ll7 c (hremNone c hc)]
          rfl
        · dsimp only
          rw [alookup_foldl_aremove, if_neg (hremNone c hc), ep5 c, if_pos hc]
      · intro c t hmem hcn
        have hto : alookup tr.current_objects c = some t :=
          alookup_eq_some_of_mem _ _ _ hnd hmem
        have ho1 : alookup objs1 c = some t := by
          rw [ep5 c, if_neg hcn, hto]
        have hmem1 : (c, t) ∈ objs1 := mem_of_alookup_eq_some _ _ _ ho1
        have hiff := ll3 c t hmem1
        constructor
        · intro htm
          have hrem : c ∈ rem := hiff.mpr ⟨hcn, htm⟩
          obtain ⟨id, hev2⟩ := ll6 c hrem
          refine ⟨⟨id, ?_⟩, ?_⟩
          · rw [eventsOf_append, ep4 c hcn, hev2]
            rfl
          · dsimp only
            rw [alookup_foldl_aremove, if_pos hrem]
        · intro htm
          have hrem : c ∉ rem := fun hr => htm (hiff.mp hr).2
          refine ⟨?_, ?_⟩
          · rw [eventsOf_append, ep4 c hcn, ll7 c hrem]
            rfl
          · dsimp only
            rw [alookup_foldl_aremove, if_neg hrem, ho1]
      · intro c hcn hkeys
        have hnone : alookup tr.current_objects c = none :=
          (alookup_eq_none_iff _ _).mpr hkeys
        have ho1 : alookup objs1 c = none := by
          rw [ep5 c, if_neg hcn, hnone]
        have hrem : c ∉ rem := by
          intro hr
          have := (ll4 c hr).1
          rw [mem_akeys_iff_isSome, ho1] at this
          simp at this
        refine ⟨?_, ?_⟩
        · rw [eventsOf_append, ep4 c hcn, ll7 c hrem]
          rfl
        · dsimp only
          rw [alookup_foldl_aremove, if_neg hrem, ho1]
      · dsimp only
        exact akeys_foldl_aremove_nodup _ _ hobjs1nd
      · rw [ll8, ep7]
      · rw [ll9, ep8]
        simp [List.append_assoc]
      · rw [ll10, ep9]
        simp
        omega

/-- With a healthy sink, process_detections always returns normally. -/
theorem process_detections_total (db : DB) (tr : EventTracker) (now : ℚ)
    (dets : List Detection) (hok : db.ok = true) :
    ∃ evs tr' db', process_detections db tr now dets = .ok (evs, tr', db') := by
  rw [process_detections]
  obtain ⟨evs1, objs1, db1, hE⟩ :=
    processEntries_total (detected_classes dets) db tr.current_objects now
      (class_confidences dets) hok
  rw [hE]
  obtain ⟨_, _, _, _, _, _, ep7, _, _⟩ :=
    processEntries_spec _ db tr.current_objects now (class_confidences dets)
      evs1 objs1 db1 (detected_classes_nodup dets) hE
  unfold check_for_leaving_objects
  dsimp only
  obtain ⟨evs2, rem, db2, hL⟩ :=
    leavingLoop_total objs1 db1 tr.timeout_seconds now (detected_classes dets)
      (by rw [ep7, hok])
  rw [hL]
  exact ⟨_, _, _, rfl⟩

/-- Per-class summary of one call: a tracked class either stays (no events) or
times out (one LEAVING_AREA event and removal); an untracked class either
enters (one ENTERING_AREA event and insertion) or stays absent. -/
theorem process_detections_step (db : DB) (tr : EventTracker) (now : ℚ)
    (dets : List Detection) (evs : List Event) (tr' : EventTracker) (db' : DB)
    (hnd : (akeys tr.current_objects).Nodup)
    (h : process_detections db tr now dets = .ok (evs, tr', db')) (c : String) :
    ((alookup tr.current_objects c).isSome →
      (eventsOf c evs = [] ∧ (alookup tr'.current_objects c).isSome) ∨
      ((∃ id, eventsOf c evs = [⟨id, .leaving_area, c, 4/5⟩]) ∧
        alookup tr'.current_objects c = none)) ∧
    (alookup tr.current_objects c = none →
      ((∃ id v, eventsOf c evs = [⟨id, .entering_area, c, v⟩]) ∧
        (alookup tr'.current_objects c).isSome) ∨
      (eventsOf c evs = [] ∧ alookup tr'.current_objects c = none)) ∧
    (akeys tr'.current_objects).Nodup := by
  obtain ⟨_, _, d2, d3, d4, d5, d6, _, _, _⟩ :=
    process_detections_spec db tr now dets evs tr' db' hnd h
  by_cases hc : c ∈ detected_classes dets
  · refine ⟨?_, ?_, d6⟩
    · intro hsome
      obtain ⟨he, hl⟩ := d3 c hc hsome
      exact Or.inl ⟨he, by rw [hl]; rfl⟩
    · intro hnone
      obtain ⟨id, v, hev, _, hl⟩ := d2 c hc hnone
      exact Or.inl ⟨⟨id, v, hev⟩, by rw [hl]; rfl⟩
  · refine ⟨?_, ?_, d6⟩
    · intro hsome
      obtain ⟨t, ht⟩ := Option.isSome_iff_exists.mp hsome
      have hmem : (c, t) ∈ tr.current_objects := mem_of_alookup_eq_some _ _ _ ht
      obtain ⟨dtm, dntm⟩ := d4 c t hmem hc
      by_cases htm : tr.timeout_seconds ≤ now - t
      · obtain ⟨hev, hl⟩ := dtm htm
        exact Or.inr ⟨hev, hl⟩
      · obtain ⟨hev, hl⟩ := dntm htm
        exact Or.inl ⟨hev, by rw [hl]; rfl⟩
    · intro hnone
      obtain ⟨hev, hl⟩ := d5 c hc ((alookup_eq_none_iff _ _).mp hnone)
      exact Or.inr ⟨hev, hl⟩

/-! Alternation of one class's events over a sequence of calls. -/

/-- Strict alternation of a class's event-type history, starting from a given
presence state: from ABSENT the next event must be an entry, from PRESENT the
next event must be a timeout. -/
def altFrom : Bool → List EventType → Prop
  | _, [] => True
  | present, .entering_area :: rest => present = false ∧ altFrom true rest
  | present, .leaving_area :: rest => present = true ∧ altFrom false rest

/-- The presence state after a class's event-type history. -/
def endPresent : Bool → List EventType → Bool
  | present, [] => present
  | _, .entering_area :: rest => endPresent true rest
  | _, .leaving_area :: rest => endPresent false rest

theorem endPresent_append (l1 l2 : List EventType) :
    ∀ p, endPresent p (l1 ++ l2) = endPresent (endPresent p l1) l2 := by
  induction l1 with
  | nil => intro p; rfl
  | cons t rest ih =>
    intro p
    cases t <;> simp [endPresent, ih]

theorem altFrom_append (l1 l2 : List EventType) :
    ∀ p, altFrom p l1 → altFrom (endPresent p l1) l2 → altFrom p (l1 ++ l2) := by
  induction l1 with
  | nil => intro p _ h2; exact h2
  | cons t rest ih =>
    intro p h1 h2
    cases t with
    | entering_area =>
      obtain ⟨hp, h1'⟩ := h1
      exact ⟨hp, ih _ h1' h2⟩
    | leaving_area =>
      obtain ⟨hp, h1'⟩ := h1
      exact ⟨hp, ih _ h1' h2⟩

theorem altFrom_chain (l : List EventType) :
    ∀ p, altFrom p l → List.Chain' (fun a b => a ≠ b) l := by
  induction l with
  | nil => intro p _; simp
  | cons t rest ih =>
    intro p h
    have hrest : List.Chain' (fun a b => a ≠ b) rest := by
      cases t with
      | entering_area => exact ih true h.2
      | leaving_area => exact ih false h.2
    rw [List.chain'_cons']
    refine ⟨?_, hrest⟩
    intro b hb
    cases rest with
    | nil => simp at hb
    | cons t2 rest2 =>
      have hb' : t2 = b := by simpa using hb
      subst hb'
      cases t with
      | entering_area =>
        cases t2 with
        | entering_area => simpa using h.2.1
        | leaving_area => simp
      | leaving_area =>
        cases t2 with
        | entering_area => simp
        | leaving_area => simpa using h.2.1

theorem altFrom_false_head (l : List EventType) (h : altFrom false l) :
    ∀ t, l.head? = some t → t = .entering_area := by
  intro t ht
  cases l with
  | nil => simp at ht
  | cons t1 rest =>
    have h1 : t1 = t := by simpa using ht
    subst h1
    cases t1 with
    | entering_area => rfl
    | leaving_area => simpa using h.1

theorem endPresent_indep (l : List EventType) (p1 p2 : Bool) (h : l ≠ []) :
    endPresent p1 l = endPresent p2 l := by
  cases l with
  | nil => exact absurd rfl h
  | cons t rest => cases t <;> rfl

theorem endPresent_false_getLast (l : List EventType) :
    endPresent false l = true ↔ l.getLast? = some .entering_area := by
  induction l with
  | nil => simp [endPresent]
  | cons t rest ih =>
    cases rest with
    | nil => cases t <;> simp [endPresent]
    | cons t2 r2 =>
      rw [List.getLast?_cons_cons]
      cases t with
      | entering_area =>
        rw [show endPresent false (EventType.entering_area :: t2 :: r2) =
            endPresent true (t2 :: r2) from rfl,
          endPresent_indep (t2 :: r2) true false (by simp)]
        exact ih
      | leaving_area =>
        rw [show endPresent false (EventType.leaving_area :: t2 :: r2) =
            endPresent false (t2 :: r2) from rfl]
        exact ih

/-- Alternation over any successful sequence of calls: each class's event
history alternates between entries and timeouts, starting according to the
initial presence state, and the final presence state matches the history. -/
theorem runCalls_alt :
    ∀ (calls : List (ℚ × List Detection)) (db : DB) (tr : EventTracker)
      (evs : List Event) (tr' : EventTracker) (db' : DB),
      (akeys tr.current_objects).Nodup →
      runCalls db tr calls = .ok (evs, tr', db') →
      ∀ c, altFrom (alookup tr.current_objects c).isSome
            ((eventsOf c evs).map Event.event_type) ∧
        (alookup tr'.current_objects c).isSome =
          endPresent (alookup tr.current_objects c).isSome
            ((eventsOf c evs).map Event.event_type) ∧
        (akeys tr'.current_objects).Nodup := by
  intro calls
  induction calls with
  | nil =>
    intro db tr evs tr' db' hnd h
    rw [runCalls] at h
    obtain ⟨rfl, rfl, rfl⟩ : evs = [] ∧ tr = tr' ∧ db = db' := by simpa using h
    intro c
    exact ⟨trivial, rfl, hnd⟩
  | cons call rest ih =>
    obtain ⟨now, dets⟩ := call
    intro db tr evs tr' db' hnd h
    rw [runCalls] at h
    cases h1 : process_detections db tr now dets with
    | error e =>
      rw [h1] at h
      simp at h
    | ok trip1 =>
      obtain ⟨evs1, tr1, db1⟩ := trip1
      rw [h1] at h
      dsimp only at h
      cases h2 : runCalls db1 tr1 rest with
      | error e =>
        rw [h2] at h
        simp at h
      | ok trip2 =>
        obtain ⟨evs2, tr2, db2⟩ := trip2
        rw [h2] at h
        obtain ⟨rfl, rfl, rfl⟩ : evs1 ++ evs2 = evs ∧ tr2 = tr' ∧ db2 = db' := by
          simpa using h
        intro c
        obtain ⟨s1, s2, snd⟩ :=
          process_detections_step db tr now dets evs1 tr1 db1 hnd h1 c
        have hstep :
            altFrom (alookup tr.current_objects c).isSome
              ((eventsOf c evs1).map Event.event_type) ∧
            (alookup tr1.current_objects c).isSome =
              endPresent (alookup tr.current_objects c).isSome
                ((eventsOf c evs1).map Event.event_type) := by
          cases hin : alookup tr.current_objects c with
          | some t =>
            simp only [hin, Option.isSome_some]
            rcases s1 (by rw [hin]; rfl) with ⟨hev, hafter⟩ | ⟨⟨id, hev⟩, hafter⟩
            · rw [hev]
              simp only [List.map_nil]
              exact ⟨trivial, hafter⟩
            · rw [hev]
              simp only [List.map_cons, List.map_nil]
              exact ⟨⟨rfl, trivial⟩, by rw [hafter]; rfl⟩
          | none =>
            simp only [hin, Option.isSome_none]
            rcases s2 hin with ⟨⟨id, v, hev⟩, hafter⟩ | ⟨hev, hafter⟩
            · rw [hev]
              simp only [List.map_cons, List.map_nil]
              exact ⟨⟨rfl, trivial⟩, hafter⟩
            · rw [hev]
              simp only [List.map_nil]
              exact ⟨trivial, by rw [hafter]; rfl⟩
        obtain ⟨ihalt, ihend, ihnd⟩ := ih db1 tr1 evs2 tr2 db2 snd h2 c
        have hmap : (eventsOf c (evs1 ++ evs2)).map Event.event_type =
            (eventsOf c evs1).map Event.event_type ++
              (eventsOf c evs2).map Event.event_type := by
          rw [eventsOf_append, List.map_append]
        refine ⟨?_, ?_, ihnd⟩
        · rw [hmap]
          refine altFrom_append _ _ _ hstep.1 ?_
          rw [← hstep.2]
          exact ihalt
        · rw [hmap, endPresent_append, ← hstep.2]
          exact ihend


/-! CameraService and CameraManager lifecycle (src/src/camera_service.py,
src/src/camera_manager.py). -/

/-- Hardware behaviour oracle: whether Picamera2 construction, camera
configuration, and hardware start succeed when attempted. -/
structure CameraHW where
  ctorOk : Bool
  configureOk : Bool
  startOk : Bool
deriving DecidableEq, Repr

/-- The lifecycle-relevant fields of CameraService: whether self.camera is
set (not None) and the is_running flag. -/
structure CameraLifecycle where
  cameraSet : Bool
  is_running : Bool
deriving DecidableEq, Repr

/-- CameraService.initialize (src/src/camera_service.py 83-104): no-op success
when the camera is already set; otherwise construct and configure the
hardware, returning False on exception. When construction succeeds but
configuration raises, self.camera stays set although False is returned. -/
def initCamera (hw : CameraHW) (s : CameraLifecycle) : Bool × CameraLifecycle :=
  if s.cameraSet then (true, s)
  else if hw.ctorOk then
    if hw.configureOk then (true, { s with cameraSet := true })
    else (false, { s with cameraSet := true })
  else (false, s)

/-- CameraService.start (src/src/camera_service.py 106-137): no-op success
when already running; failure (without initializing) when the camera is not
set; otherwise start the hardware, warm up, and launch the capture thread
(warm-up sleep and thread spawn are not modelled), reporting failure with
is_running reset to False when the hardware start raises. -/
def startCamera (hw : CameraHW) (s : CameraLifecycle) : Bool × CameraLifecycle :=
  if s.is_running then (true, s)
  else if !s.cameraSet then (false, s)
  else if hw.startOk then (true, { s with is_running := true })
  else (false, { s with is_running := false })

/-- CameraManager.start (src/src/camera_manager.py 51-65): initialize the
camera service first when self.camera is not set, returning False if that
fails, then delegate to CameraService.start. -/
def managerStart (hw : CameraHW) (s : CameraLifecycle) : Bool × CameraLifecycle :=
  if s.cameraSet then startCamera hw s
  else
    let r := initCamera hw s
    if r.1 then startCamera hw r.2 else (false, r.2)

/-! The capture loop and the latest-frame slot (src/src/camera_service.py
160-221). A Frame is represented by its sequence number
(metadata.frame_number); pixel data, rotation and timing metadata are not
read by any claim and are not modelled. -/

/-- The latest-frame slot and the frame counter of one CameraService. -/
structure CaptureState where
  latest_frame : Option Nat
  frame_counter : Nat
deriving DecidableEq, Repr

/-- One capture tick (lines 165-210): build a Frame whose frame_number is the
current counter, publish it to the slot, and increment the counter (both under
the lock). -/
def capture_tick (s : CaptureState) : CaptureState :=
  { latest_frame := some s.frame_counter, frame_counter := s.frame_counter + 1 }

/-- The capture state after n ticks of one service lifetime; initialization
(and cleanup) reset the slot to None and the counter to 0. -/
def captureRun : Nat → CaptureState
  | 0 => { latest_frame := none, frame_counter := 0 }
  | n + 1 => capture_tick (captureRun n)

/-- CameraService.get_latest_frame (lines 218-221): return the slot contents
under the lock. -/
def get_latest_frame (s : CaptureState) : Option Nat :=
  s.latest_frame

theorem captureRun_frame_counter : ∀ n, (captureRun n).frame_counter = n := by
  intro n
  induction n with
  | zero => rfl
  | succ n ih => simp [captureRun, capture_tick, ih]

theorem captureRun_succ (n : Nat) :
    captureRun (n + 1) = { latest_frame := some n, frame_counter := n + 1 } := by
  rw [captureRun, capture_tick, captureRun_frame_counter]

/-! StreamingService (src/src/streaming_service.py). -/

/-- ASCII bytes of a header string (str.encode(); all headers are ASCII, so
UTF-8 bytes coincide with code points). -/
def strBytes (s : String) : List Nat :=
  s.data.map Char.toNat

/-- StreamingService._format_frame (lines 113-123): the multipart framing of
one JPEG payload, given as its byte list. -/
def format_frame (frame_data : List Nat) : List Nat :=
  strBytes ("--frame\r\nContent-Type: image/jpeg\r\nContent-Length: "
      ++ toString frame_data.length ++ "\r\n\r\n")
    ++ frame_data ++ strBytes "\r\n"

/-- The framing the spec describes for one part of the live stream, with the
boundary as a parameter: part framed as two dashes, the boundary, CRLF, the
Content-Type and Content-Length headers, a blank line, the payload bytes and a
trailing CRLF. This definition follows the words of the spec (section 6), to
be compared against format_frame. -/
def specMultipartPart (boundary : String) (payload : List Nat) : List Nat :=
  strBytes ("--" ++ boundary ++ "\r\n"
      ++ "Content-Type: image/jpeg" ++ "\r\n"
      ++ "Content-Length: " ++ toString payload.length ++ "\r\n" ++ "\r\n")
    ++ payload ++ strBytes "\r\n"

/-- The environment one iteration of the stream generator observes: the two
loop-condition flags, the latest frame (as JPEG bytes, already reflecting
frame.to_jpeg), whether fetching/encoding raises, and whether the client
disconnects at the yield. -/
structure IterEnv where
  is_streaming_active : Bool
  camera_is_active : Bool
  latest_frame : Option (List Nat)
  fetch_raises : Bool
  client_disconnects : Bool
deriving DecidableEq, Repr

/-- The chunks yielded by the body of StreamingService._create_stream
(lines 83-107) under a given sequence of per-iteration environments: the loop
exits when either flag is false; an exception while fetching or encoding is
caught by the inner handler and breaks the loop; a missing frame sleeps and
continues; otherwise the formatted frame is yielded, and a client disconnect
at the yield terminates the generator. -/
def streamChunks : List IterEnv → List (List Nat)
  | [] => []
  | e :: rest =>
    if e.is_streaming_active && e.camera_is_active then
      if e.fetch_raises then []
      else
        match e.latest_frame with
        | none => streamChunks rest
        | some d =>
          format_frame d :: (if e.client_disconnects then [] else streamChunks rest)
    else []

/-- The active-viewer counter of StreamingService. -/
structure StreamingState where
  active_streams : Nat
deriving DecidableEq, Repr

/-- StreamingService._create_stream (lines 78-111): increment the counter when
iteration starts, run the generator body to termination by any path (normal
exhaustion, inner-exception break, or client disconnect), then decrement the
counter exactly once in the finally block, which Python guarantees to run on
every termination path of the generator. -/
def create_stream (st : StreamingState) (env : List IterEnv) :
    List (List Nat) × StreamingState :=
  let st1 : StreamingState := ⟨st.active_streams + 1⟩
  (streamChunks env, ⟨st1.active_streams - 1⟩)


/-! Behaviour of the tracker when the sink is failing. -/

theorem processEntries_failed_sink :
    ∀ (classes : List String) (db : DB) (objs : List (String × ℚ)) (now : ℚ)
      (confs : List (String × ℚ)) (evs : List Event)
      (objs' : List (String × ℚ)) (db' : DB),
      db.ok = false →
      processEntries db objs now confs classes = .ok (evs, objs', db') →
      evs = [] ∧ db' = db := by
  intro classes
  induction classes with
  | nil =>
    intro db objs now confs evs objs' db' _ h
    rw [processEntries] at h
    obtain ⟨rfl, _, rfl⟩ : evs = [] ∧ objs = objs' ∧ db = db' := by simpa using h
    exact ⟨rfl, rfl⟩
  | cons c rest ih =>
    intro db objs now confs evs objs' db' hfail h
    rw [processEntries] at h
    by_cases hin : (alookup objs c).isSome
    · rw [if_pos hin] at h
      exact ih db _ now confs evs objs' db' hfail h
    · rw [if_neg hin] at h
      simp [tracker_log_event, DB.log_event, hfail] at h

theorem leavingLoop_failed_sink :
    ∀ (items : List (String × ℚ)) (db : DB) (timeout now : ℚ)
      (detected : List String) (evs : List Event) (rem : List String) (db' : DB),
      db.ok = false →
      leavingLoop db timeout now detected items = .ok (evs, rem, db') →
      evs = [] ∧ db' = db := by
  intro items
  induction items with
  | nil =>
    intro db timeout now detected evs rem db' _ h
    rw [leavingLoop] at h
    obtain ⟨rfl, _, rfl⟩ : evs = [] ∧ [] = rem ∧ db = db' := by simpa using h
    exact ⟨rfl, rfl⟩
  | cons p rest ih =>
    obtain ⟨c, t⟩ := p
    intro db timeout now detected evs rem db' hfail h
    rw [leavingLoop] at h
    by_cases hdet : c ∈ detected
    · rw [if_pos hdet] at h
      exact ih db timeout now detected evs rem db' hfail h
    · rw [if_neg hdet] at h
      by_cases htm : timeout ≤ now - t
      · rw [if_pos htm] at h
        simp [tracker_log_event, DB.log_event, hfail] at h
      · rw [if_neg htm] at h
        exact ih db timeout now detected evs rem db' hfail h

theorem process_detections_failed_sink (db : DB) (tr : EventTracker) (now : ℚ)
    (dets : List Detection) (evs : List Event) (tr' : EventTracker) (db' : DB)
    (hfail : db.ok = false)
    (h : process_detections db tr now dets = .ok (evs, tr', db')) :
    evs = [] ∧ db' = db := by
  rw [process_detections] at h
  cases hE : processEntries db tr.current_objects now (class_confidences dets)
      (detected_classes dets) with
  | error e =>
    rw [hE] at h
    simp at h
  | ok tripE =>
    obtain ⟨evs1, objs1, db1⟩ := tripE
    rw [hE] at h
    obtain ⟨rfl, hdb1⟩ :=
      processEntries_failed_sink _ db tr.current_objects now _ evs1 objs1 db1 hfail hE
    unfold check_for_leaving_objects at h
    dsimp only at h
    cases hL : leavingLoop db1 tr.timeout_seconds now (detected_classes dets) objs1 with
    | error e =>
      rw [hL] at h
      simp at h
    | ok tripL =>
      obtain ⟨evs2, rem, db2⟩ := tripL
      rw [hL] at h
      obtain ⟨rfl, hdb2⟩ :=
        leavingLoop_failed_sink objs1 db1 tr.timeout_seconds now _ evs2 rem db2
          (by rw [hdb1]; exact hfail) hL
      obtain ⟨rfl, _, rfl⟩ :
          ([] : List Event) ++ [] = evs ∧
            ({ timeout_seconds := tr.timeout_seconds,
               current_objects := rem.foldl aremove objs1 } : EventTracker) = tr' ∧
            db2 = db' := by
        simpa using h
      exact ⟨rfl, by rw [hdb2, hdb1]⟩

/-! Claim theorems. -/

/-- C1 counterexample: with a failing sink, a process_detections call that
emits an event does NOT return normally with the event in the returned list;
the sink exception propagates and the call raises. -/
theorem C1_counterexample :
    process_detections ⟨false, 1, []⟩ ⟨3, []⟩ 0 [⟨"dog", 9/10⟩] = .error () := rfl

/-- C1 (amended): every event returned by process_detections was forwarded
synchronously to the persistence sink before the call returned - a successful
call appends exactly the returned events, in order, to the sink - but a sink
failure is not tolerated: with a failing sink a call can only return normally
when it emits no event at all (with the sink unchanged); any emitted event
makes the call raise instead of returning. -/
theorem C1_amended_sink_forwarding (db : DB) (tr : EventTracker) (now : ℚ)
    (dets : List Detection) (evs : List Event) (tr' : EventTracker) (db' : DB)
    (hnd : (akeys tr.current_objects).Nodup)
    (h : process_detections db tr now dets = .ok (evs, tr', db')) :
    db'.records = db.records ++ evs.map evRecord ∧
    (db.ok = false → evs = [] ∧ db' = db) := by
  obtain ⟨_, _, _, _, _, _, _, _, hrec, _⟩ :=
    process_detections_spec db tr now dets evs tr' db' hnd h
  exact ⟨hrec, fun hfail => process_detections_failed_sink db tr now dets
    evs tr' db' hfail h⟩

/-- C1 witness: the amended theorem applied to the concrete dog call with a
healthy sink. -/
theorem C1_amended_sink_forwarding_witness :
    (⟨true, 2, [⟨none, .entering_area, "dog", 9/10⟩]⟩ : DB).records =
        ([] : List SinkRecord) ++
          ([⟨1, .entering_area, "dog", 9/10⟩] : List Event).map evRecord ∧
      ((⟨true, 1, []⟩ : DB).ok = false →
        ([⟨1, .entering_area, "dog", 9/10⟩] : List Event) = [] ∧
          (⟨true, 2, [⟨none, .entering_area, "dog", 9/10⟩]⟩ : DB) = ⟨true, 1, []⟩) :=
  C1_amended_sink_forwarding ⟨true, 1, []⟩ ⟨3, []⟩ 0 [⟨"dog", 9/10⟩]
    [⟨1, .entering_area, "dog", 9/10⟩] ⟨3, [("dog", 0)]⟩
    ⟨true, 2, [⟨none, .entering_area, "dog", 9/10⟩]⟩ (by decide) rfl

/-- C2 counterexample: CameraService.start() does not auto-invoke
initialize(): from an uninitialized, not-running state with hardware on which
initialization would succeed, start() returns failure and leaves the camera
uninitialized, even though initialize() would have succeeded and start() after
it would have succeeded. -/
theorem C2_counterexample :
    startCamera ⟨true, true, true⟩ ⟨false, false⟩ = (false, ⟨false, false⟩) ∧
    initCamera ⟨true, true, true⟩ ⟨false, false⟩ = (true, ⟨true, false⟩) ∧
    startCamera ⟨true, true, true⟩ ⟨true, false⟩ = (true, ⟨true, true⟩) :=
  ⟨rfl, rfl, rfl⟩

/-- C2 (amended): CameraService.start() requires the camera to have been
initialized and returns failure, without initializing, when it has not been;
(unless it is already running, in which case the check is not reached);
the auto-invocation of initialize() is performed by CameraManager.start(),
which initializes first when the camera is unset (propagating an
initialization failure) and then delegates to CameraService.start(); when the
service is already running, CameraService.start() is a no-op returning
success; otherwise it returns the success/failure of starting capture. -/
theorem C2_amended_start (hw : CameraHW) (s : CameraLifecycle) :
    (s.is_running = true → startCamera hw s = (true, s)) ∧
    (s.is_running = false → s.cameraSet = false → startCamera hw s = (false, s)) ∧
    (s.cameraSet = false → managerStart hw s =
      (if hw.ctorOk && hw.configureOk then
        startCamera hw { cameraSet := true, is_running := s.is_running }
       else (false, (initCamera hw s).2))) ∧
    (s.cameraSet = true → managerStart hw s = startCamera hw s) ∧
    (s.is_running = false → s.cameraSet = true →
      startCamera hw s =
        if hw.startOk then (true, { s with is_running := true })
        else (false, { s with is_running := false })) := by
  obtain ⟨cset, crun⟩ := s
  obtain ⟨c1, c2, c3⟩ := hw
  cases cset <;> cases crun <;> cases c1 <;> cases c2 <;> cases c3 <;> decide

/-- C2 witness: the amended theorem applied to a running service. -/
theorem C2_amended_start_witness :
    startCamera ⟨true, true, true⟩ ⟨true, true⟩ = (true, ⟨true, true⟩) :=
  (C2_amended_start ⟨true, true, true⟩ ⟨true, true⟩).1 rfl


/-- C3: in every process_detections call (including one with an empty batch),
a tracked class emits a LEAVING_AREA event iff it is absent from the batch
classes and now minus its last-seen time has reached timeout_seconds; every
LEAVING_AREA event carries the fixed default confidence 0.8; a timed-out class
is removed from the tracked state; and the concrete scenario with
timeout_seconds 3.0 - dog at confidence 0.9 at t=0, empty batches at t=1, 2,
and 3.1 - yields exactly one ENTERING_AREA(dog, 0.9), then no events, then
exactly one LEAVING_AREA(dog, 0.8). -/
theorem C3_leaving_iff (db : DB) (tr : EventTracker) (now : ℚ)
    (dets : List Detection) (evs : List Event) (tr' : EventTracker) (db' : DB)
    (hnd : (akeys tr.current_objects).Nodup)
    (h : process_detections db tr now dets = .ok (evs, tr', db')) :
    (∀ c t, (c, t) ∈ tr.current_objects →
      ((∃ e ∈ evs, e.event_type = .leaving_area ∧ e.class_name = c) ↔
        (c ∉ detected_classes dets ∧ tr.timeout_seconds ≤ now - t))) ∧
    (∀ e ∈ evs, e.event_type = .leaving_area → e.confidence = 4/5) ∧
    (∀ c t, (c, t) ∈ tr.current_objects → c ∉ detected_classes dets →
      tr.timeout_seconds ≤ now - t → alookup tr'.current_objects c = none) ∧
    (process_detections ⟨true, 1, []⟩ ⟨3, []⟩ 0 [⟨"dog", 9/10⟩] =
        .ok ([⟨1, .entering_area, "dog", 9/10⟩], ⟨3, [("dog", 0)]⟩,
          ⟨true, 2, [⟨none, .entering_area, "dog", 9/10⟩]⟩) ∧
      process_detections ⟨true, 2, [⟨none, .entering_area, "dog", 9/10⟩]⟩
          ⟨3, [("dog", 0)]⟩ 1 [] =
        .ok ([], ⟨3, [("dog", 0)]⟩, ⟨true, 2, [⟨none, .entering_area, "dog", 9/10⟩]⟩) ∧
      process_detections ⟨true, 2, [⟨none, .entering_area, "dog", 9/10⟩]⟩
          ⟨3, [("dog", 0)]⟩ 2 [] =
        .ok ([], ⟨3, [("dog", 0)]⟩, ⟨true, 2, [⟨none, .entering_area, "dog", 9/10⟩]⟩) ∧
      process_detections ⟨true, 2, [⟨none, .entering_area, "dog", 9/10⟩]⟩
          ⟨3, [("dog", 0)]⟩ (31/10) [] =
        .ok ([⟨2, .leaving_area, "dog", 4/5⟩], ⟨3, []⟩,
          ⟨true, 3, [⟨none, .entering_area, "dog", 9/10⟩,
            ⟨none, .leaving_area, "dog", 4/5⟩]⟩)) := by
  obtain ⟨_, ⟨evs1, evs2, rfl, hev1, hev2⟩, d2, d3, d4, d5, d6, _, _, _⟩ :=
    process_detections_spec db tr now dets evs tr' db' hnd h
  refine ⟨?_, ?_, ?_, ?_, ?_, ?_, ?_⟩
  · intro c t hmem
    constructor
    · rintro ⟨e, he, hty, hcn⟩
      have hsome : (alookup tr.current_objects c).isSome := by
        rw [alookup_eq_some_of_mem _ _ _ hnd hmem]
        rfl
      by_cases hc : c ∈ detected_classes dets
      · obtain ⟨hevc, _⟩ := d3 c hc hsome
        have : e ∈ eventsOf c (evs1 ++ evs2) := by
          rw [eventsOf]
          exact List.mem_filter.mpr ⟨he, by simp [hcn]⟩
        rw [hevc] at this
        simp at this
      · refine ⟨hc, ?_⟩
        by_contra htm
        obtain ⟨_, hntm⟩ := d4 c t hmem hc
        obtain ⟨hevc, _⟩ := hntm htm
        have : e ∈ eventsOf c (evs1 ++ evs2) := by
          rw [eventsOf]
          exact List.mem_filter.mpr ⟨he, by simp [hcn]⟩
        rw [hevc] at this
        simp at this
    · rintro ⟨hc, htm⟩
      obtain ⟨htmpart, _⟩ := d4 c t hmem hc
      obtain ⟨⟨id, hevc⟩, _⟩ := htmpart htm
      refine ⟨⟨id, .leaving_area, c, 4/5⟩, ?_, rfl, rfl⟩
      have : (⟨id, .leaving_area, c, 4/5⟩ : Event) ∈ eventsOf c (evs1 ++ evs2) := by
        rw [hevc]
        exact List.mem_singleton.mpr rfl
      exact List.mem_of_mem_filter this
  · intro e he hty
    rcases List.mem_append.mp he with he1 | he2
    · rw [hev1 e he1] at hty
      simp at hty
    · exact (hev2 e he2).2
  · intro c t hmem hc htm
    obtain ⟨htmpart, _⟩ := d4 c t hmem hc
    exact (htmpart htm).2
  · with_unfolding_all rfl
  · with_unfolding_all rfl
  · with_unfolding_all rfl
  · with_unfolding_all rfl

/-- C3 witness: the theorem applied to a concrete call where a tracked cat
times out. -/
theorem C3_leaving_iff_witness :
    (∃ e ∈ ([⟨1, .leaving_area, "cat", 4/5⟩] : List Event),
        e.event_type = .leaving_area ∧ e.class_name = "cat") ↔
      ("cat" ∉ detected_classes [] ∧
        (⟨3, [("cat", 0)]⟩ : EventTracker).timeout_seconds ≤ 4 - 0) :=
  (C3_leaving_iff ⟨true, 1, []⟩ ⟨3, [("cat", 0)]⟩ 4 []
      [⟨1, .leaving_area, "cat", 4/5⟩] ⟨3, []⟩
      ⟨true, 2, [⟨none, .leaving_area, "cat", 4/5⟩]⟩ (by decide)
      (by with_unfolding_all rfl)).1 "cat" 0 (by decide)

/-- C4: for every successful call and every class in the batch, an untracked
class gets exactly one ENTERING_AREA event carrying the highest confidence
among the batch's detections of that class and its last-seen time set to now,
while an already-tracked class gets its last-seen time refreshed to now and no
event at all. -/
theorem C4_entering (db : DB) (tr : EventTracker) (now : ℚ)
    (dets : List Detection) (evs : List Event) (tr' : EventTracker) (db' : DB)
    (hnd : (akeys tr.current_objects).Nodup)
    (h : process_detections db tr now dets = .ok (evs, tr', db')) :
    (∀ c, c ∈ detected_classes dets → alookup tr.current_objects c = none →
      ∃ id v, eventsOf c evs = [⟨id, .entering_area, c, v⟩] ∧
        (∃ d ∈ dets, d.class_name = c ∧ d.confidence = v) ∧
        (∀ d ∈ dets, d.class_name = c → d.confidence ≤ v) ∧
        alookup tr'.current_objects c = some now) ∧
    (∀ c, c ∈ detected_classes dets → (alookup tr.current_objects c).isSome →
      eventsOf c evs = [] ∧ alookup tr'.current_objects c = some now) := by
  obtain ⟨_, _, d2, d3, _, _, _, _, _, _⟩ :=
    process_detections_spec db tr now dets evs tr' db' hnd h
  refine ⟨?_, d3⟩
  intro c hc hnone
  obtain ⟨id, v, hev, ⟨hex, hub⟩, hl⟩ := d2 c hc hnone
  exact ⟨id, v, hev, hex, hub, hl⟩

/-- C4 witness: the theorem applied to the concrete dog call. -/
theorem C4_entering_witness :
    ∃ id v,
      eventsOf "dog" [⟨1, .entering_area, "dog", 9/10⟩] =
          [⟨id, .entering_area, "dog", v⟩] ∧
        (∃ d ∈ ([⟨"dog", 9/10⟩] : List Detection),
          d.class_name = "dog" ∧ d.confidence = v) ∧
        (∀ d ∈ ([⟨"dog", 9/10⟩] : List Detection),
          d.class_name = "dog" → d.confidence ≤ v) ∧
        alookup (⟨3, [("dog", 0)]⟩ : EventTracker).current_objects "dog" = some 0 :=
  (C4_entering ⟨true, 1, []⟩ ⟨3, []⟩ 0 [⟨"dog", 9/10⟩]
      [⟨1, .entering_area, "dog", 9/10⟩] ⟨3, [("dog", 0)]⟩
      ⟨true, 2, [⟨none, .entering_area, "dog", 9/10⟩]⟩ (by decide)
      (by with_unfolding_all rfl)).1 "dog" (by decide) rfl


/-- C5: over any successful sequence of process_detections calls from a fresh
tracker, each class's event history strictly alternates (in particular a class
emits ENTERING_AREA at most once without an intervening LEAVING_AREA, no
matter how many consecutive batches contain it), the first event of a class is
always ENTERING_AREA, and afterwards a class is a key of the tracked map - the
tracker considers it currently in the area - iff its last event is an
ENTERING_AREA, so entries are added exactly when a class enters and removed
exactly when its LEAVING_AREA is emitted. -/
theorem C5_presence (timeout : ℚ) (db : DB) (calls : List (ℚ × List Detection))
    (evs : List Event) (tr' : EventTracker) (db' : DB)
    (h : runCalls db ⟨timeout, []⟩ calls = .ok (evs, tr', db')) (c : String) :
    List.Chain' (fun a b => a ≠ b) ((eventsOf c evs).map Event.event_type) ∧
    (∀ t, ((eventsOf c evs).map Event.event_type).head? = some t →
      t = .entering_area) ∧
    (c ∈ akeys tr'.current_objects ↔
      ((eventsOf c evs).map Event.event_type).getLast? = some .entering_area) := by
  obtain ⟨halt, hend, _⟩ :=
    runCalls_alt calls db ⟨timeout, []⟩ evs tr' db' (by simp [akeys]) h c
  refine ⟨altFrom_chain _ _ halt, altFrom_false_head _ halt, ?_⟩
  rw [mem_akeys_iff_isSome, ← endPresent_false_getLast]
  rw [show ((alookup tr'.current_objects c).isSome ↔
      ((alookup tr'.current_objects c).isSome = true)) from Iff.rfl]
  rw [hend]
  exact Iff.rfl

/-- C5 witness: the theorem applied to the concrete cat sequence. -/
theorem C5_presence_witness :
    List.Chain' (fun a b => a ≠ b)
      ((eventsOf "cat" [⟨1, .entering_area, "cat", 7/10⟩,
        ⟨2, .leaving_area, "cat", 4/5⟩]).map Event.event_type) ∧
    (∀ t, ((eventsOf "cat" [⟨1, .entering_area, "cat", 7/10⟩,
        ⟨2, .leaving_area, "cat", 4/5⟩]).map Event.event_type).head? = some t →
      t = .entering_area) ∧
    ("cat" ∈ akeys (⟨3, []⟩ : EventTracker).current_objects ↔
      ((eventsOf "cat" [⟨1, .entering_area, "cat", 7/10⟩,
        ⟨2, .leaving_area, "cat", 4/5⟩]).map Event.event_type).getLast? =
        some .entering_area) :=
  C5_presence 3 ⟨true, 1, []⟩ [(0, [⟨"cat", 7/10⟩]), (1, []), (2, []), (31/10, [])]
    [⟨1, .entering_area, "cat", 7/10⟩, ⟨2, .leaving_area, "cat", 4/5⟩] ⟨3, []⟩
    ⟨true, 3, [⟨none, .entering_area, "cat", 7/10⟩, ⟨none, .leaving_area, "cat", 4/5⟩]⟩
    (by with_unfolding_all rfl) "cat"

/-- C6: every returned event list is all ENTERING_AREA events followed by all
LEAVING_AREA events; and in the concrete cat scenario - cat in the batch at
t=0, absent until t=3.1 with timeout 3.0 - exactly one ENTERING_AREA and then
exactly one LEAVING_AREA are emitted across the calls, in that order. -/
theorem C6_order (db : DB) (tr : EventTracker) (now : ℚ)
    (dets : List Detection) (evs : List Event) (tr' : EventTracker) (db' : DB)
    (hnd : (akeys tr.current_objects).Nodup)
    (h : process_detections db tr now dets = .ok (evs, tr', db')) :
    (∃ evs1 evs2, evs = evs1 ++ evs2 ∧
      (∀ e ∈ evs1, e.event_type = .entering_area) ∧
      (∀ e ∈ evs2, e.event_type = .leaving_area)) ∧
    runCalls ⟨true, 1, []⟩ ⟨3, []⟩
        [(0, [⟨"cat", 7/10⟩]), (1, []), (2, []), (31/10, [])] =
      .ok ([⟨1, .entering_area, "cat", 7/10⟩, ⟨2, .leaving_area, "cat", 4/5⟩],
        ⟨3, []⟩,
        ⟨true, 3, [⟨none, .entering_area, "cat", 7/10⟩,
          ⟨none, .leaving_area, "cat", 4/5⟩]⟩) := by
  obtain ⟨_, ⟨evs1, evs2, rfl, hev1, hev2⟩, _⟩ :=
    process_detections_spec db tr now dets evs tr' db' hnd h
  exact ⟨⟨evs1, evs2, rfl, hev1, fun e he => (hev2 e he).1⟩, by with_unfolding_all rfl⟩

/-- C6 witness: the theorem applied to the concrete dog call. -/
theorem C6_order_witness :
    ∃ evs1 evs2,
      ([⟨1, .entering_area, "dog", 9/10⟩] : List Event) = evs1 ++ evs2 ∧
        (∀ e ∈ evs1, e.event_type = .entering_area) ∧
        (∀ e ∈ evs2, e.event_type = .leaving_area) :=
  (C6_order ⟨true, 1, []⟩ ⟨3, []⟩ 0 [⟨"dog", 9/10⟩]
      [⟨1, .entering_area, "dog", 9/10⟩] ⟨3, [("dog", 0)]⟩
      ⟨true, 2, [⟨none, .entering_area, "dog", 9/10⟩]⟩ (by decide)
      (by with_unfolding_all rfl)).1

/-- C7: within one service lifetime, successive capture ticks publish frames
with strictly increasing sequence numbers, and get_latest_frame never returns
a frame whose sequence number is smaller than that of a frame returned at an
earlier tick (monotonicity for every consumer). -/
theorem C7_monotonic :
    (∀ n, (captureRun (n + 1)).latest_frame = some n) ∧
    (∀ n a b, get_latest_frame (captureRun n) = some a →
      get_latest_frame (captureRun (n + 1)) = some b → a < b) ∧
    (∀ m n a b, m ≤ n → get_latest_frame (captureRun m) = some a →
      get_latest_frame (captureRun n) = some b → a ≤ b) := by
  have hpub : ∀ n, (captureRun (n + 1)).latest_frame = some n := by
    intro n
    rw [captureRun_succ]
  refine ⟨hpub, ?_, ?_⟩
  · intro n a b ha hb
    cases n with
    | zero => simp [get_latest_frame, captureRun] at ha
    | succ k =>
      rw [get_latest_frame, hpub k] at ha
      rw [get_latest_frame, hpub (k + 1)] at hb
      obtain rfl : k = a := by simpa using ha
      obtain rfl : k + 1 = b := by simpa using hb
      omega
  · intro m n a b hmn ha hb
    cases m with
    | zero => simp [get_latest_frame, captureRun] at ha
    | succ k =>
      cases n with
      | zero => simp [get_latest_frame, captureRun] at hb
      | succ l =>
        rw [get_latest_frame, hpub k] at ha
        rw [get_latest_frame, hpub l] at hb
        obtain rfl : k = a := by simpa using ha
        obtain rfl : l = b := by simpa using hb
        omega

/-- C7 witness: the monotonicity conjunct applied at ticks 2 and 3. -/
theorem C7_monotonic_witness : (2 : Nat) ≤ 3 ∧ (1 : Nat) ≤ 2 :=
  ⟨by decide, C7_monotonic.2.2 2 3 1 2 (by decide) rfl rfl⟩

/-- C8: each started viewer stream changes the active-viewer counter by net
zero: the increment at iteration start is matched by exactly one decrement in
the guaranteed-cleanup block, on every termination path of the generator -
normal exhaustion when streaming is deactivated or the camera goes inactive,
a break after an exception while fetching or encoding a frame, and a client
disconnect at the yield. -/
theorem C8_net_zero (st : StreamingState) (env : List IterEnv) :
    (create_stream st env).2 = st := by
  obtain ⟨n⟩ := st
  simp [create_stream]

theorem strBytes_append (a b : String) :
    strBytes (a ++ b) = strBytes a ++ strBytes b := by
  simp [strBytes, String.data_append]

/-- C9: every chunk yielded for a JPEG payload of n bytes is exactly the
multipart framing the spec describes - two dashes, the boundary fixed as
"frame", CRLF, the Content-Type header, the Content-Length header equal to the
payload length, a blank line, the payload bytes, and a trailing CRLF. -/
theorem C9_framing (payload : List Nat) :
    format_frame payload = specMultipartPart "frame" payload := by
  rw [format_frame, specMultipartPart]
  simp only [strBytes_append, List.append_assoc]
  rw [show strBytes "--frame\r\nContent-Type: image/jpeg\r\nContent-Length: " =
      strBytes "--" ++ (strBytes "frame" ++ (strBytes "\r\n" ++
        (strBytes "Content-Type: image/jpeg" ++ (strBytes "\r\n" ++
          strBytes "Content-Length: ")))) from by decide,
    show strBytes "\r\n\r\n" = strBytes "\r\n" ++ strBytes "\r\n" from by decide]
  simp only [List.append_assoc]

/-- C10: in any single successful process_detections call, the returned list
contains at most one event mentioning any given class label - a label can
never receive both an ENTERING_AREA and a LEAVING_AREA event in the same call,
because a label detected in the current batch is skipped by the timeout
check. -/
theorem C10_at_most_one (db : DB) (tr : EventTracker) (now : ℚ)
    (dets : List Detection) (evs : List Event) (tr' : EventTracker) (db' : DB)
    (hnd : (akeys tr.current_objects).Nodup)
    (h : process_detections db tr now dets = .ok (evs, tr', db')) (c : String) :
    (eventsOf c evs).length ≤ 1 := by
  obtain ⟨s1, s2, _⟩ := process_detections_step db tr now dets evs tr' db' hnd h c
  cases hin : alookup tr.current_objects c with
  | some t =>
    rcases s1 (by rw [hin]; rfl) with ⟨hev, _⟩ | ⟨⟨id, hev⟩, _⟩ <;> simp [hev]
  | none =>
    rcases s2 hin with ⟨⟨id, v, hev⟩, _⟩ | ⟨hev, _⟩ <;> simp [hev]

/-- C10 witness: the theorem applied to the concrete dog call. -/
theorem C10_at_most_one_witness :
    (eventsOf "dog" [⟨1, .entering_area, "dog", 9/10⟩]).length ≤ 1 :=
  C10_at_most_one ⟨true, 1, []⟩ ⟨3, []⟩ 0 [⟨"dog", 9/10⟩]
    [⟨1, .entering_area, "dog", 9/10⟩] ⟨3, [("dog", 0)]⟩
    ⟨true, 2, [⟨none, .entering_area, "dog", 9/10⟩]⟩ (by decide)
    (by with_unfolding_all rfl) "dog"

end PetLog
